import Mathlib

/-!
# cpputil::spinlock and cpputil::padded_spinlock (src/smp/spinlock.h)

A shallow embedding of the spinlock header.

* `std::atomic_flag` is a Boolean cell (`true` = set, `false` = clear) with the two
  operations the header uses, `test_and_set` and `clear`.  The `std::memory_order`
  argument is carried along and recorded in the trace of the call, it has no influence
  on the value an operation returns.
* Every member function returns, next to its C++ result and the new lock state, the
  list of the events it performed (clock readings, test-and-sets, clears, `cpu_relax`),
  in program order.
* The two loops (`lock`, `try_lock_until`) take a number of iterations; a run is either
  `returned` or still `spinning` after that many iterations.  While a call spins, the
  other threads of the program may act on the flag: `other k` is what they do to the
  flag between the `k`-th failed test-and-set of the call and its next step.
* `now i` is the tick count the `i`-th call of `Clock::now()` returns.  The two
  operators of `std::chrono` the header uses, `when > Clock::now()` and
  `steady_clock::now() + duration`, are evaluated by the library in the common type of
  their operands, which depends on the instantiation of the member templates (a 64-bit
  tick count that wraps, a floating-point count that rounds).  `std::chrono` is not part
  of the repository: a `Chrono` holds the two operators of one instantiation, and the
  members take it as a parameter.  `Chrono.unsigned64` is the family of instantiations
  whose common type counts in `unsigned long long`.
* `sizeof(spinlock)` is left to the implementation and is a parameter `sz` of the
  layout of `padded_spinlock<N>`; `size_t` has 64 bits, as on the x86_64 target the
  header names.
* For the threads that race for one lock, a schedule names the thread that makes the
  next atomic step, and every step acts on the one shared state.
-/

namespace cpputil

/-- The `std::memory_order` argument of an atomic operation. -/
inductive memory_order where
  | relaxed
  | consume
  | acquire
  | release
  | acq_rel
  | seq_cst
  deriving DecidableEq

/-- The `std::atomic_flag` cell: `v = true` is set, `v = false` is clear. -/
structure atomic_flag where
  v : Bool
  deriving DecidableEq

/-- The initialiser `ATOMIC_FLAG_INIT`: the clear state. -/
def ATOMIC_FLAG_INIT : atomic_flag := ⟨false⟩

/-- The call `flag.test_and_set(order)`: the previous value, and the flag set. -/
def atomic_flag.test_and_set (f : atomic_flag) (_order : memory_order) : Bool × atomic_flag :=
  (f.v, ⟨true⟩)

/-- The call `flag.clear(order)`: the flag clear. -/
def atomic_flag.clear (_f : atomic_flag) (_order : memory_order) : atomic_flag :=
  ⟨false⟩

/-- What a call does, one entry per executed operation, in program order. -/
inductive Event where
  | tas (order : memory_order) (prev : Bool)
  | clear (order : memory_order)
  | now (reading : Int)
  | cpu_relax
  deriving DecidableEq

/-- The class `spinlock`: its only member is the flag. -/
structure spinlock where
  flag : atomic_flag
  deriving DecidableEq

/-- The constructor `spinlock() : flag(ATOMIC_FLAG_INIT) {}`. -/
def spinlock.new : spinlock := ⟨ATOMIC_FLAG_INIT⟩

/-- The surroundings of a call: the other threads and the clock. -/
structure Env where
  /-- What the other threads do to the flag after the `k`-th failed test-and-set. -/
  other : Nat → atomic_flag → atomic_flag
  /-- The value of the `i`-th reading of the clock. -/
  now : Nat → Int

/-- The surroundings in which no other thread touches the flag. -/
def Env.alone (now : Nat → Int) : Env := ⟨fun _ f => f, now⟩

/-- The surroundings in which another thread calls `unlock()` right after the `n`-th
failed test-and-set of the call (counted from 0), and nothing else happens to the flag. -/
def Env.unlockedAfter (n : Nat) (now : Nat → Int) : Env :=
  ⟨fun k f => if k = n then f.clear memory_order.release else f, now⟩

/-- The surroundings after one clock reading has been consumed. -/
def Env.afterReading (E : Env) : Env := ⟨E.other, fun i => E.now (i + 1)⟩

/-- The time arithmetic of one instantiation of the member templates
`try_lock_until<Clock, Duration>` and `try_lock_for<Rep, Period>`: the types of the
deadline and of the duration, and the two operators of `std::chrono` the header applies
to them.  A reading of the clock is given by its tick count. -/
structure Chrono where
  /-- The type `time_point<Clock, Duration>` of the deadline `when`. -/
  TimePoint : Type
  /-- The type `duration<Rep, Period>` of the argument of `try_lock_for`. -/
  Duration : Type
  /-- The value of `when > Clock::now()` at a reading of the clock. -/
  gt : TimePoint → Int → Bool
  /-- The value of `steady_clock::now() + duration` at a reading of the clock. -/
  plus : Int → Duration → TimePoint

/-- The outcome of running a loop for a number of iterations. -/
inductive Run (σ α : Type) where
  | returned (ret : α) (st : σ) (tr : List Event)
  | spinning (st : σ) (tr : List Event)
  deriving DecidableEq

/-- The same outcome with the events `pre` performed first. -/
def Run.after {σ α : Type} (pre : List Event) : Run σ α → Run σ α
  | .returned r st tr => .returned r st (pre ++ tr)
  | .spinning st tr => .spinning st (pre ++ tr)

/-- The same outcome seen through `f` on the state. -/
def Run.mapState {σ τ α : Type} (f : σ → τ) : Run σ α → Run τ α
  | .returned r st tr => .returned r (f st) tr
  | .spinning st tr => .spinning (f st) tr

/-- The state of an outcome. -/
def Run.state {σ α : Type} : Run σ α → σ
  | .returned _ st _ => st
  | .spinning st _ => st

/-- The events of an outcome. -/
def Run.trace {σ α : Type} : Run σ α → List Event
  | .returned _ _ tr => tr
  | .spinning _ tr => tr

/-- The returned value of an outcome, if it returned. -/
def Run.result {σ α : Type} : Run σ α → Option α
  | .returned r _ _ => some r
  | .spinning _ _ => none

/-- The member `bool try_lock()`:
`return !flag.test_and_set(std::memory_order_acquire);`. -/
def spinlock.try_lock (s : spinlock) : Bool × spinlock × List Event :=
  match s.flag.test_and_set .acquire with
  | (prev, f) => (!prev, ⟨f⟩, [.tas .acquire prev])

/-- The member `void unlock()`: `flag.clear(std::memory_order_release);`. -/
def spinlock.unlock (s : spinlock) : spinlock × List Event :=
  (⟨s.flag.clear .release⟩, [.clear .release])

/-- The loop of `void lock()`:
`while (flag.test_and_set(std::memory_order_acquire)) cpu_relax();`
run for `fuel` iterations, `k` failed test-and-sets having been made before. -/
def spinlock.lockLoop (other : Nat → atomic_flag → atomic_flag) :
    Nat → Nat → spinlock → Run spinlock Unit
  | 0, _, s => .spinning s []
  | fuel + 1, k, s =>
    match s.flag.test_and_set .acquire with
    | (true, f) =>
      (spinlock.lockLoop other fuel (k + 1) ⟨other k f⟩).after [.tas .acquire true, .cpu_relax]
    | (false, f) => .returned () ⟨f⟩ [.tas .acquire false]

/-- The member `void lock()`, run for `fuel` iterations of its loop. -/
def spinlock.lock (E : Env) (fuel : Nat) (s : spinlock) : Run spinlock Unit :=
  spinlock.lockLoop E.other fuel 0 s

/-- The loop of `try_lock_until`:
`while (when > Clock::now()) if (try_lock()) return true; return false;`
run for `fuel` iterations, `i` iterations having been made before. -/
def spinlock.untilLoop (C : Chrono) (E : Env) (when : C.TimePoint) :
    Nat → Nat → spinlock → Run spinlock Bool
  | 0, _, s => .spinning s []
  | fuel + 1, i, s =>
    if C.gt when (E.now i) then
      match s.try_lock with
      | (true, s1, ev) => .returned true s1 (.now (E.now i) :: ev)
      | (false, s1, ev) =>
        (spinlock.untilLoop C E when fuel (i + 1) ⟨E.other i s1.flag⟩).after
          (.now (E.now i) :: ev)
    else .returned false s [.now (E.now i)]

/-- The member `bool try_lock_until(const time_point<Clock, Duration>& when)`,
run for `fuel` iterations of its loop; the clock of `E` is `Clock`, and `C` is the
arithmetic of the instantiation. -/
def spinlock.try_lock_until (C : Chrono) (E : Env) (when : C.TimePoint) (fuel : Nat)
    (s : spinlock) : Run spinlock Bool :=
  spinlock.untilLoop C E when fuel 0 s

/-- The member `bool try_lock_for(const duration<Rep, Period>& duration)`:
`return try_lock_until(std::chrono::steady_clock::now() + duration);`
the clock of `E` is `std::chrono::steady_clock`, and `C` is the arithmetic of the
instantiation. -/
def spinlock.try_lock_for (C : Chrono) (E : Env) (duration : C.Duration) (fuel : Nat)
    (s : spinlock) : Run spinlock Bool :=
  (spinlock.try_lock_until C E.afterReading (C.plus (E.now 0) duration) fuel s).after
    [.now (E.now 0)]

/-! ## Sequences of calls made by one thread -/

/-- A call of one of the two members `try_lock()` and `unlock()`. -/
inductive Call where
  | try_lock
  | unlock
  deriving DecidableEq

/-- The lock after one call. -/
def spinlock.call (s : spinlock) : Call → spinlock
  | .try_lock => s.try_lock.2.1
  | .unlock => s.unlock.1

/-- The lock after a sequence of calls, no other thread touching it. -/
def spinlock.calls (s : spinlock) (cs : List Call) : spinlock :=
  cs.foldl spinlock.call s

/-- The calls made since the most recent `unlock()` of `cs`, or all of `cs` when it
has no `unlock()`. -/
def sinceLastUnlock (cs : List Call) : List Call :=
  (cs.reverse.takeWhile (fun c => decide (c ≠ Call.unlock))).reverse

/-! ## The class `padded_spinlock<N>` -/

/-- The type `char` of the padding bytes. -/
abbrev char := Fin 256

/-- The array bound `N - sizeof(s)` of `_padding`, an expression of type `size_t`
(64 bits); `sz` is `sizeof(spinlock)`, which the header leaves to the implementation. -/
def padding_extent (sz N : Nat) : Nat :=
  (((N : Int) - (sz : Int)) % (2 : Int) ^ 64).toNat

/-- The class `padded_spinlock<N>`: `alignas(N) spinlock s; char _padding[N - sizeof(s)];`
where `sz` is `sizeof(spinlock)`. -/
structure padded_spinlock (sz N : Nat) where
  s : spinlock
  _padding : Fin (padding_extent sz N) → char

/-- The alias `using cacheline_spinlock = padded_spinlock<64>;`. -/
abbrev cacheline_spinlock (sz : Nat) := padded_spinlock sz 64

/-- The member `void lock() { return s.lock(); }`. -/
def padded_spinlock.lock {sz N : Nat} (E : Env) (fuel : Nat) (p : padded_spinlock sz N) :
    Run (padded_spinlock sz N) Unit :=
  (p.s.lock E fuel).mapState (fun s1 => { p with s := s1 })

/-- The member `bool try_lock() { return s.try_lock(); }`. -/
def padded_spinlock.try_lock {sz N : Nat} (p : padded_spinlock sz N) :
    Bool × padded_spinlock sz N × List Event :=
  match p.s.try_lock with
  | (r, s1, ev) => (r, { p with s := s1 }, ev)

/-- The member `try_lock_for`: `return s.try_lock_for(duration);`. -/
def padded_spinlock.try_lock_for {sz N : Nat} (C : Chrono) (E : Env) (duration : C.Duration)
    (fuel : Nat) (p : padded_spinlock sz N) : Run (padded_spinlock sz N) Bool :=
  (p.s.try_lock_for C E duration fuel).mapState (fun s1 => { p with s := s1 })

/-- The member `try_lock_until`: `return s.try_lock_until(when);`. -/
def padded_spinlock.try_lock_until {sz N : Nat} (C : Chrono) (E : Env) (when : C.TimePoint)
    (fuel : Nat) (p : padded_spinlock sz N) : Run (padded_spinlock sz N) Bool :=
  (p.s.try_lock_until C E when fuel).mapState (fun s1 => { p with s := s1 })

/-- The member `void unlock() { return s.unlock(); }`. -/
def padded_spinlock.unlock {sz N : Nat} (p : padded_spinlock sz N) :
    padded_spinlock sz N × List Event :=
  match p.s.unlock with
  | (s1, ev) => ({ p with s := s1 }, ev)

/-! ## The layout of `padded_spinlock<N>` -/

/-- The least multiple of `a` that is at least `x`. -/
def align_up (x a : Nat) : Nat := (x + a - 1) / a * a

/-- Where the members of a `padded_spinlock<N>` lie, and its size and alignment. -/
structure ClassLayout where
  offset_s : Nat
  offset_padding : Nat
  padding_bytes : Nat
  alignment : Nat
  size : Nat
  deriving DecidableEq

/-- The layout of `padded_spinlock<N>`, members in declaration order: `s` at the first
offset that is a multiple of `N` (its `alignas`), `_padding` right behind it (a `char`
array has alignment 1), and the size rounded up to the alignment `N` of the class. -/
def padded_spinlock.layout (sz N : Nat) : ClassLayout :=
  let offset_s := align_up 0 N
  let offset_padding := align_up (offset_s + sz) 1
  let padding_bytes := padding_extent sz N
  { offset_s := offset_s
    offset_padding := offset_padding
    padding_bytes := padding_bytes
    alignment := N
    size := align_up (offset_padding + padding_bytes) N }

/-- The expression `sizeof(padded_spinlock<N>)`. -/
def padded_spinlock.sizeof (sz N : Nat) : Nat := (padded_spinlock.layout sz N).size

/-- The address of element `i` of an array of `padded_spinlock<N>` that starts at `base`. -/
def element_addr (sz N base i : Nat) : Nat := base + i * padded_spinlock.sizeof sz N

/-- The address of the embedded lock `s` of element `i` of such an array. -/
def lock_addr (sz N base i : Nat) : Nat :=
  element_addr sz N base i + (padded_spinlock.layout sz N).offset_s

/-- The `N`-byte line an address falls in. -/
def line_of (N addr : Nat) : Nat := addr / N

/-! ## Threads racing for one lock -/

/-- Where a thread stands in
`for (i = 0; i < M; i++) { lock(); r = counter; counter = r + 1; unlock(); }`. -/
inductive Pc where
  | lock
  | read
  | write
  | unlock
  | done
  deriving DecidableEq

/-- One thread: its position, the value `r` it read from the counter, and the number `i`
of iterations it has completed. -/
structure Thread where
  pc : Pc
  r : Nat
  i : Nat
  deriving DecidableEq

/-- The shared lock, the shared counter (a natural number: it does not overflow) and
the threads. -/
structure System where
  lk : spinlock
  counter : Nat
  threads : List Thread
  deriving DecidableEq

/-- A thread is between its successful `lock()` and its `unlock()`. -/
def Thread.inCS (t : Thread) : Bool :=
  t.pc = Pc.read || t.pc = Pc.write || t.pc = Pc.unlock

/-- A thread about to begin iteration `i` of `M`. -/
def Thread.atIteration (M i r : Nat) : Thread :=
  ⟨if i < M then Pc.lock else Pc.done, r, i⟩

/-- The start: a clear lock, the counter at zero, `N` threads before their first
iteration. -/
def System.init (N M : Nat) : System :=
  ⟨spinlock.new, 0, List.replicate N (Thread.atIteration M 0 0)⟩

/-- One atomic step of thread `tid`: one iteration of the loop of `lock()` (a
test-and-set, and `cpu_relax()` when it failed), the read of the counter, the write of
the counter, or `unlock()`.  A thread that is done, or a `tid` that names no thread,
leaves the system as it is. -/
def System.step (M : Nat) (σ : System) (tid : Nat) : System :=
  match σ.threads[tid]? with
  | none => σ
  | some t =>
    match t.pc with
    | .lock =>
      match spinlock.lock (Env.alone (fun _ => 0)) 1 σ.lk with
      | .returned _ s1 _ =>
        { σ with lk := s1, threads := σ.threads.set tid { t with pc := .read } }
      | .spinning s1 _ => { σ with lk := s1 }
    | .read =>
      { σ with threads := σ.threads.set tid { t with pc := .write, r := σ.counter } }
    | .write =>
      { σ with counter := t.r + 1, threads := σ.threads.set tid { t with pc := .unlock } }
    | .unlock =>
      { σ with
        lk := σ.lk.unlock.1
        threads := σ.threads.set tid (Thread.atIteration M (t.i + 1) t.r) }
    | .done => σ

/-- The system after the steps of a schedule, the list of the threads that move. -/
def System.run (M : Nat) (σ : System) (sched : List Nat) : System :=
  sched.foldl (System.step M) σ

/-! ## Shapes of traces -/

/-- The events of `n` failed iterations of the loop of `try_lock_until`, the first of
them reading the clock for the `i`-th time: a clock reading and a test-and-set that saw
the flag set, `n` times over. -/
def spinTrace (now : Nat → Int) : Nat → Nat → List Event
  | _, 0 => []
  | i, n + 1 => Event.now (now i) :: Event.tas memory_order.acquire true :: spinTrace now (i + 1) n

/-- Every test-and-set of the trace comes right after a clock reading that `early`
holds of: the event before a test-and-set at position `j` is such a reading. -/
def attemptsGuarded (early : Int → Prop) (tr : List Event) : Prop :=
  ∀ (j : Nat) (o : memory_order) (b : Bool), tr[j]? = some (Event.tas o b) →
    ∃ r : Int, 0 < j ∧ tr[j - 1]? = some (Event.now r) ∧ early r

/-- The number of threads between their successful `lock()` and their `unlock()`. -/
def inCSCount (ts : List Thread) : Nat :=
  (ts.map (fun t => if t.inCS then 1 else 0)).sum

/-- What a thread has added to the counter so far: one for every completed iteration,
and one more when it has written the counter and not yet unlocked. -/
def Thread.contribution (t : Thread) : Nat :=
  t.i + (if t.pc = Pc.unlock then 1 else 0)

/-- The number of steps a thread still has to make when it never has to retry. -/
def Thread.stepsLeft (M : Nat) (t : Thread) : Nat :=
  match t.pc with
  | .lock => 4 * (M - t.i)
  | .read => 4 * (M - t.i) - 1
  | .write => 4 * (M - t.i) - 2
  | .unlock => 4 * (M - t.i) - 3
  | .done => 0

/-- All threads have completed their `M` iterations. -/
def System.finished (σ : System) : Prop := ∀ t ∈ σ.threads, t.pc = Pc.done

/-- The invariant of the racing threads: the flag is set exactly when one thread is in
its critical section and no thread is when the flag is clear; the counter is the sum of
the contributions; a thread about to write has read the current counter; a thread has
completed fewer than `M` iterations unless it is done, and then exactly `M`. -/
structure System.Inv (M : Nat) (σ : System) : Prop where
  held : inCSCount σ.threads = if σ.lk.flag.v then 1 else 0
  count : σ.counter = (σ.threads.map Thread.contribution).sum
  fresh : ∀ t ∈ σ.threads, t.pc = Pc.write → t.r = σ.counter
  bound : ∀ t ∈ σ.threads, (t.pc = Pc.done → t.i = M) ∧ (t.pc ≠ Pc.done → t.i < M)

/-- The number of steps the threads still have to make when none has to retry. -/
def System.stepsLeft (M : Nat) (σ : System) : Nat :=
  (σ.threads.map (Thread.stepsLeft M)).sum

/-! ## Clocks for the concrete inputs -/

theorem try_lock_eq (s : spinlock) :
    s.try_lock = (!s.flag.v, ⟨⟨true⟩⟩, [Event.tas memory_order.acquire s.flag.v]) := rfl

theorem unlock_eq (s : spinlock) :
    s.unlock = (⟨⟨false⟩⟩, [Event.clear memory_order.release]) := rfl

theorem calls_append (s : spinlock) (cs : List Call) (c : Call) :
    s.calls (cs ++ [c]) = (s.calls cs).call c := by
  simp [spinlock.calls, List.foldl_append]

theorem calls_append_list (s : spinlock) (cs ds : List Call) :
    s.calls (cs ++ ds) = (s.calls cs).calls ds := by
  simp [spinlock.calls, List.foldl_append]

theorem sinceLastUnlock_append_unlock (cs : List Call) :
    sinceLastUnlock (cs ++ [Call.unlock]) = [] := by
  simp [sinceLastUnlock]

theorem sinceLastUnlock_append_try_lock (cs : List Call) :
    sinceLastUnlock (cs ++ [Call.try_lock]) = sinceLastUnlock cs ++ [Call.try_lock] := by
  simp [sinceLastUnlock, List.takeWhile_cons]

/-- The flag after a sequence of calls on a new lock is set exactly when a `try_lock()`
has been made since the most recent `unlock()`. -/
theorem flag_after_calls (cs : List Call) :
    (spinlock.new.calls cs).flag.v = true ↔ Call.try_lock ∈ sinceLastUnlock cs := by
  induction cs using List.reverseRecOn with
  | nil => simp [spinlock.calls, sinceLastUnlock, spinlock.new, ATOMIC_FLAG_INIT]
  | append_singleton cs c _ =>
    rw [calls_append]
    cases c with
    | try_lock =>
      rw [sinceLastUnlock_append_try_lock]
      simp [spinlock.call, try_lock_eq]
    | unlock =>
      rw [sinceLastUnlock_append_unlock]
      simp [spinlock.call, unlock_eq]

/-- A run of calls that starts and ends with the flag clear, the flag having been set
in between, contains an `unlock()`. -/
theorem unlock_mem_of_cleared (s : spinlock) (mid : List Call)
    (hs : s.flag.v = true) (h : (s.calls mid).flag.v = false) : Call.unlock ∈ mid := by
  induction mid using List.reverseRecOn with
  | nil => simp [spinlock.calls] at h; simp [h] at hs
  | append_singleton mid c _ =>
    cases c with
    | try_lock => rw [calls_append] at h; simp [spinlock.call, try_lock_eq] at h
    | unlock => simp

/-- C1: for every lock state `try_lock()` performs exactly one test-and-set (with acquire
ordering, on the flag as it was before the call), returns true if and only if the flag
was clear immediately before the call, and leaves the flag set whatever it returned. -/
theorem try_lock_one_test_and_set (s : spinlock) :
    s.try_lock.2.2 = [Event.tas memory_order.acquire s.flag.v] ∧
    (s.try_lock.1 = true ↔ s.flag.v = false) ∧
    s.try_lock.2.1.flag.v = true := by
  simp [try_lock_eq]

/-- C2: after every finite sequence `cs` of `try_lock()` and `unlock()` calls on a newly
constructed lock, a `try_lock()` succeeds exactly when no `try_lock()` has been called
since the most recent `unlock()` (or since construction).  In particular the first
`try_lock()` on a new lock succeeds, a `try_lock()` after a `try_lock()` fails, a
`try_lock()` right after an `unlock()` succeeds, and between two successful `try_lock()`
calls there is an `unlock()`. -/
theorem try_lock_succeeds_iff_fresh (cs : List Call) :
    ((spinlock.new.calls cs).try_lock.1 = true ↔ Call.try_lock ∉ sinceLastUnlock cs) ∧
    spinlock.new.try_lock.1 = true ∧
    (spinlock.new.calls (cs ++ [Call.try_lock])).try_lock.1 = false ∧
    (spinlock.new.calls (cs ++ [Call.unlock])).try_lock.1 = true ∧
    (∀ mid : List Call, (spinlock.new.calls cs).try_lock.1 = true →
      (spinlock.new.calls (cs ++ Call.try_lock :: mid)).try_lock.1 = true →
      Call.unlock ∈ mid) := by
  refine ⟨?_, rfl, ?_, ?_, ?_⟩
  · rw [← flag_after_calls cs]
    simp [try_lock_eq]
  · rw [calls_append]; rfl
  · rw [calls_append]; rfl
  · intro mid _ h2
    have e : cs ++ Call.try_lock :: mid = (cs ++ [Call.try_lock]) ++ mid := by simp
    rw [e, calls_append_list, calls_append] at h2
    apply unlock_mem_of_cleared ((spinlock.new.calls cs).call Call.try_lock) mid rfl
    simpa [try_lock_eq] using h2

/-! ## Theorems: `lock` -/

theorem flag_eq_of_v (f : atomic_flag) (b : Bool) (h : f.v = b) : f = ⟨b⟩ := by
  cases f; simp_all

theorem spinlock_eq_of_v (s : spinlock) (b : Bool) (h : s.flag.v = b) : s = ⟨⟨b⟩⟩ := by
  cases s with
  | mk f => cases f; simp_all

theorem lockLoop_zero (other : Nat → atomic_flag → atomic_flag) (k : Nat) (s : spinlock) :
    spinlock.lockLoop other 0 k s = Run.spinning s [] := rfl

theorem lockLoop_clear (other : Nat → atomic_flag → atomic_flag) (fuel k : Nat) (s : spinlock)
    (h : s.flag.v = false) :
    spinlock.lockLoop other (fuel + 1) k s
      = Run.returned () ⟨⟨true⟩⟩ [Event.tas memory_order.acquire false] := by
  simp [spinlock.lockLoop, atomic_flag.test_and_set, h]

theorem lockLoop_set (other : Nat → atomic_flag → atomic_flag) (fuel k : Nat) (s : spinlock)
    (h : s.flag.v = true) :
    spinlock.lockLoop other (fuel + 1) k s
      = (spinlock.lockLoop other fuel (k + 1) ⟨other k ⟨true⟩⟩).after
          [Event.tas memory_order.acquire true, Event.cpu_relax] := by
  simp [spinlock.lockLoop, atomic_flag.test_and_set, h]

/-- Whenever the loop of `lock()` returns, it made some failed test-and-sets, each
followed by `cpu_relax()`, and then one test-and-set that saw the flag clear; the flag
is set on return. -/
theorem lockLoop_returned (other : Nat → atomic_flag → atomic_flag) :
    ∀ (fuel k : Nat) (s st : spinlock) (tr : List Event),
      spinlock.lockLoop other fuel k s = Run.returned () st tr →
      st = ⟨⟨true⟩⟩ ∧
      ∃ j, j < fuel ∧ tr = (List.replicate j
          [Event.tas memory_order.acquire true, Event.cpu_relax]).flatten
            ++ [Event.tas memory_order.acquire false] := by
  intro fuel
  induction fuel with
  | zero => intro k s st tr h; simp [lockLoop_zero] at h
  | succ fuel ih =>
    intro k s st tr h
    cases hv : s.flag.v with
    | false =>
      rw [lockLoop_clear other fuel k s hv] at h
      simp only [Run.returned.injEq, true_and] at h
      exact ⟨h.1.symm, 0, Nat.succ_pos _, by simp [← h.2]⟩
    | true =>
      rw [lockLoop_set other fuel k s hv] at h
      cases hr : spinlock.lockLoop other fuel (k + 1) ⟨other k ⟨true⟩⟩ with
      | spinning st1 tr1 => simp [hr, Run.after] at h
      | returned r st1 tr1 =>
        rw [hr] at h
        simp only [Run.after, Run.returned.injEq, true_and] at h
        obtain ⟨hst, j, hj, htr⟩ := ih _ _ _ _ hr
        refine ⟨h.1 ▸ hst, j + 1, Nat.succ_lt_succ hj, ?_⟩
        rw [← h.2, htr]
        simp [List.replicate_succ]

/-- While nobody clears a set flag, the loop of `lock()` is still spinning after every
number of iterations, each of which was a failed test-and-set and a `cpu_relax()`, and
the flag is still set. -/
theorem lockLoop_spins (other : Nat → atomic_flag → atomic_flag)
    (hother : ∀ k, (other k ⟨true⟩).v = true) :
    ∀ (fuel k : Nat) (s : spinlock), s.flag.v = true →
      spinlock.lockLoop other fuel k s = Run.spinning ⟨⟨true⟩⟩
        (List.replicate fuel [Event.tas memory_order.acquire true, Event.cpu_relax]).flatten := by
  intro fuel
  induction fuel with
  | zero =>
    intro k s hs
    simp [lockLoop_zero, spinlock_eq_of_v s true hs]
  | succ fuel ih =>
    intro k s hs
    rw [lockLoop_set other fuel k s hs, ih (k + 1) ⟨other k ⟨true⟩⟩ (hother k)]
    simp [Run.after, List.replicate_succ]

/-- C4: if the flag is clear at the call, `lock()` returns after exactly one
test-and-set and leaves the flag set; whenever `lock()` returns, its last test-and-set
saw the flag clear (every earlier one saw it set) and the flag is set on return; and if
the flag is set and nobody ever clears it, `lock()` never returns: after every number
`n` of iterations the loop is still running, having made `n` failed test-and-sets, and
the flag is still set. -/
theorem lock_blocking_acquire (E : Env) (s : spinlock) :
    (s.flag.v = false → ∀ fuel, s.lock E (fuel + 1)
        = Run.returned () ⟨⟨true⟩⟩ [Event.tas memory_order.acquire false]) ∧
    (∀ fuel st tr, s.lock E fuel = Run.returned () st tr →
        st.flag.v = true ∧ tr.getLast? = some (Event.tas memory_order.acquire false) ∧
        ∃ j, tr = (List.replicate j
          [Event.tas memory_order.acquire true, Event.cpu_relax]).flatten
            ++ [Event.tas memory_order.acquire false]) ∧
    (s.flag.v = true → (∀ k, (E.other k ⟨true⟩).v = true) →
      ∀ n, s.lock E n = Run.spinning ⟨⟨true⟩⟩
        (List.replicate n [Event.tas memory_order.acquire true, Event.cpu_relax]).flatten ∧
        (s.lock E n).result = none ∧ (s.lock E n).state.flag.v = true) := by
  refine ⟨?_, ?_, ?_⟩
  · intro h fuel
    exact lockLoop_clear E.other fuel 0 s h
  · intro fuel st tr h
    obtain ⟨hst, j, _, htr⟩ := lockLoop_returned E.other fuel 0 s st tr h
    refine ⟨by rw [hst], ?_, j, htr⟩
    rw [htr]; simp
  · intro h hother n
    have e := lockLoop_spins E.other hother n 0 s h
    refine ⟨e, ?_, ?_⟩
    · show (spinlock.lockLoop E.other n 0 s).result = none
      rw [e]; rfl
    · show (spinlock.lockLoop E.other n 0 s).state.flag.v = true
      rw [e]; rfl

/-! ## Theorems: `try_lock_until` and `try_lock_for` -/

theorem untilLoop_zero (C : Chrono) (E : Env) (when : C.TimePoint) (i : Nat) (s : spinlock) :
    spinlock.untilLoop C E when 0 i s = Run.spinning s [] := rfl

theorem untilLoop_expired (C : Chrono) (E : Env) (when : C.TimePoint) (fuel i : Nat)
    (s : spinlock) (h : C.gt when (E.now i) = false) :
    spinlock.untilLoop C E when (fuel + 1) i s
      = Run.returned false s [Event.now (E.now i)] := by
  simp [spinlock.untilLoop, h]

theorem untilLoop_acquire (C : Chrono) (E : Env) (when : C.TimePoint) (fuel i : Nat)
    (s : spinlock) (h : C.gt when (E.now i) = true) (hs : s.flag.v = false) :
    spinlock.untilLoop C E when (fuel + 1) i s = Run.returned true ⟨⟨true⟩⟩
      [Event.now (E.now i), Event.tas memory_order.acquire false] := by
  simp [spinlock.untilLoop, h, try_lock_eq, hs]

theorem untilLoop_retry (C : Chrono) (E : Env) (when : C.TimePoint) (fuel i : Nat)
    (s : spinlock) (h : C.gt when (E.now i) = true) (hs : s.flag.v = true) :
    spinlock.untilLoop C E when (fuel + 1) i s
      = (spinlock.untilLoop C E when fuel (i + 1) ⟨E.other i ⟨true⟩⟩).after
          [Event.now (E.now i), Event.tas memory_order.acquire true] := by
  simp [spinlock.untilLoop, h, try_lock_eq, hs]

/-- The three shapes of a run of the loop of `try_lock_until`: still spinning after
`fuel` failed attempts, returned true at the first attempt that saw the flag clear, or
returned false at the first clock reading at which `when > Clock::now()` was false. -/
theorem untilLoop_shape (C : Chrono) (E : Env) (when : C.TimePoint) :
    ∀ (fuel i : Nat) (s : spinlock),
      (∃ st, spinlock.untilLoop C E when fuel i s
          = Run.spinning st (spinTrace E.now i fuel) ∧
        ∀ j, j < fuel → C.gt when (E.now (i + j)) = true) ∨
      (∃ n, n < fuel ∧ spinlock.untilLoop C E when fuel i s = Run.returned true ⟨⟨true⟩⟩
          (spinTrace E.now i n ++
            [Event.now (E.now (i + n)), Event.tas memory_order.acquire false]) ∧
        ∀ j, j ≤ n → C.gt when (E.now (i + j)) = true) ∨
      (∃ n st, n < fuel ∧ spinlock.untilLoop C E when fuel i s = Run.returned false st
          (spinTrace E.now i n ++ [Event.now (E.now (i + n))]) ∧
        (∀ j, j < n → C.gt when (E.now (i + j)) = true) ∧
        C.gt when (E.now (i + n)) = false) := by
  intro fuel
  induction fuel with
  | zero =>
    intro i s
    exact Or.inl ⟨s, by simp [untilLoop_zero, spinTrace], fun j hj => absurd hj (Nat.not_lt_zero j)⟩
  | succ fuel ih =>
    intro i s
    cases h : C.gt when (E.now i) with
    | false =>
      right; right
      exact ⟨0, s, Nat.succ_pos _, by simp [untilLoop_expired C E when fuel i s h, spinTrace],
        fun j hj => absurd hj (Nat.not_lt_zero j), by simpa using h⟩
    | true =>
      cases hs : s.flag.v with
      | false =>
        right; left
        refine ⟨0, Nat.succ_pos _,
          by simp [untilLoop_acquire C E when fuel i s h hs, spinTrace], ?_⟩
        intro j hj
        have : j = 0 := Nat.le_zero.mp hj
        simpa [this] using h
      | true =>
        rw [untilLoop_retry C E when fuel i s h hs]
        have shift : ∀ (m : Nat), (∀ j, j < m → C.gt when (E.now (i + 1 + j)) = true) →
            ∀ j, j < m + 1 → C.gt when (E.now (i + j)) = true := by
          intro m hm j hj
          cases j with
          | zero => simpa using h
          | succ j =>
            have := hm j (Nat.lt_of_succ_lt_succ hj)
            have e : i + 1 + j = i + (j + 1) := by omega
            rwa [e] at this
        rcases ih (i + 1) ⟨E.other i ⟨true⟩⟩ with ⟨st, hr, hlt⟩ | ⟨n, hn, hr, hlt⟩ |
          ⟨n, st, hn, hr, hlt, hge⟩
        · left
          exact ⟨st, by simp [hr, Run.after, spinTrace], shift fuel hlt⟩
        · right; left
          refine ⟨n + 1, Nat.succ_lt_succ hn, ?_, ?_⟩
          · have e : i + 1 + n = i + (n + 1) := by omega
            simp [hr, Run.after, spinTrace, e]
          · intro j hj
            exact shift (n + 1) (fun j hj => hlt j (Nat.lt_succ_iff.mp hj)) j
              (Nat.lt_succ_iff.mpr hj)
        · right; right
          refine ⟨n + 1, st, Nat.succ_lt_succ hn, ?_, shift n hlt, ?_⟩
          · have e : i + 1 + n = i + (n + 1) := by omega
            simp [hr, Run.after, spinTrace, e]
          · have e : i + 1 + n = i + (n + 1) := by omega
            rwa [e] at hge

theorem attemptsGuarded_nil (early : Int → Prop) : attemptsGuarded early [] := by
  intro j o b h
  simp at h

theorem attemptsGuarded_reading (early : Int → Prop) (r : Int) :
    attemptsGuarded early [Event.now r] := by
  intro j o b h
  cases j with
  | zero => simp at h
  | succ j => simp at h

theorem attemptsGuarded_cons (early : Int → Prop) (r : Int) (o1 : memory_order) (b1 : Bool)
    (rest : List Event) (hr : early r) (h : attemptsGuarded early rest) :
    attemptsGuarded early (Event.now r :: Event.tas o1 b1 :: rest) := by
  intro j o b hj
  cases j with
  | zero => simp at hj
  | succ j =>
    cases j with
    | zero => exact ⟨r, Nat.succ_pos 0, rfl, hr⟩
    | succ j =>
      simp only [List.getElem?_cons_succ] at hj
      obtain ⟨r1, hpos, hprev, hlt⟩ := h j o b hj
      refine ⟨r1, Nat.succ_pos _, ?_, hlt⟩
      obtain ⟨m, rfl⟩ : ∃ m, j = m + 1 := ⟨j - 1, by omega⟩
      simpa using hprev

theorem attemptsGuarded_spinTrace (now : Nat → Int) (early : Int → Prop) (rest : List Event)
    (hrest : attemptsGuarded early rest) :
    ∀ (n i : Nat), (∀ j, j < n → early (now (i + j))) →
      attemptsGuarded early (spinTrace now i n ++ rest) := by
  intro n
  induction n with
  | zero => intro i _; simpa [spinTrace] using hrest
  | succ n ih =>
    intro i h
    have h0 : early (now i) := by simpa using h 0 (Nat.succ_pos n)
    have := ih (i + 1) (fun j hj => by
      have := h (j + 1) (Nat.succ_lt_succ hj)
      have e2 : i + 1 + j = i + (j + 1) := by omega
      rwa [e2])
    exact attemptsGuarded_cons early (now i) memory_order.acquire true _ h0 this

theorem mapState_embedded {sz N : Nat} {α : Type} (p : padded_spinlock sz N)
    (r : Run spinlock α) :
    (r.mapState (fun s1 => ({ p with s := s1 } : padded_spinlock sz N))).mapState
        (fun q => q.s) = r ∧
    ((r.mapState (fun s1 => ({ p with s := s1 } : padded_spinlock sz N))).state)._padding
      = p._padding := by
  cases r <;> exact ⟨rfl, rfl⟩

/-- C7: every member of `padded_spinlock<N>` forwards to the member of the same name of
the embedded lock `s`: on every state and with the same arguments it returns the same
result, performs the same events, leaves `s` in the state the `spinlock` member leaves
it in, and leaves the padding as it was. -/
theorem padded_spinlock_forwards {sz N : Nat} (p : padded_spinlock sz N) (C : Chrono)
    (E : Env) (when : C.TimePoint) (duration : C.Duration) (fuel : Nat) :
    ((p.lock E fuel).mapState (fun q => q.s) = p.s.lock E fuel ∧
      (p.lock E fuel).state._padding = p._padding) ∧
    (p.try_lock.1 = p.s.try_lock.1 ∧ p.try_lock.2.1.s = p.s.try_lock.2.1 ∧
      p.try_lock.2.2 = p.s.try_lock.2.2 ∧ p.try_lock.2.1._padding = p._padding) ∧
    ((p.try_lock_for C E duration fuel).mapState (fun q => q.s)
        = p.s.try_lock_for C E duration fuel ∧
      (p.try_lock_for C E duration fuel).state._padding = p._padding) ∧
    ((p.try_lock_until C E when fuel).mapState (fun q => q.s)
        = p.s.try_lock_until C E when fuel ∧
      (p.try_lock_until C E when fuel).state._padding = p._padding) ∧
    (p.unlock.1.s = p.s.unlock.1 ∧ p.unlock.2 = p.s.unlock.2 ∧
      p.unlock.1._padding = p._padding) :=
  ⟨mapState_embedded p (p.s.lock E fuel), ⟨rfl, rfl, rfl, rfl⟩,
    mapState_embedded p (p.s.try_lock_for C E duration fuel),
    mapState_embedded p (p.s.try_lock_until C E when fuel), ⟨rfl, rfl, rfl⟩⟩

/-! ## Theorems: the layout of `padded_spinlock` -/

theorem padding_extent_eq (sz N : Nat) (hN : N < 2 ^ 32) (hsz : sz ≤ N) :
    padding_extent sz N = N - sz := by
  unfold padding_extent
  have h1 : (0 : Int) ≤ (N : Int) - (sz : Int) := by omega
  have h2 : (N : Int) - (sz : Int) < (2 : Int) ^ 64 := by
    have : (N : Int) < 2 ^ 32 := by exact_mod_cast hN
    have : ((2 : Int) ^ 32) < (2 : Int) ^ 64 := by norm_num
    omega
  rw [Int.emod_eq_of_lt h1 h2]
  omega

theorem align_up_zero (N : Nat) (hN : 0 < N) : align_up 0 N = 0 := by
  unfold align_up
  have : (0 + N - 1) / N = 0 := Nat.div_eq_of_lt (by omega)
  rw [this, Nat.zero_mul]

theorem align_up_one (x : Nat) : align_up x 1 = x := by
  simp [align_up]

theorem align_up_self (N : Nat) (hN : 0 < N) : align_up N N = N := by
  unfold align_up
  have : (N + N - 1) / N = 1 := by
    apply Nat.div_eq_of_lt_le
    · omega
    · omega
  rw [this, Nat.one_mul]

theorem sizeof_padded_eq (sz N : Nat) (hpos : 0 < N) (hN : N < 2 ^ 32) (hsz : sz ≤ N) :
    padded_spinlock.sizeof sz N = N := by
  simp only [padded_spinlock.sizeof, padded_spinlock.layout, padding_extent_eq sz N hN hsz,
    align_up_zero N hpos, align_up_one, Nat.zero_add]
  rw [Nat.add_sub_cancel' hsz, align_up_self N hpos]

theorem lock_addr_eq (sz N base i : Nat) (hpos : 0 < N) (hN : N < 2 ^ 32) (hsz : sz ≤ N) :
    lock_addr sz N base i = base + i * N := by
  simp [lock_addr, element_addr, sizeof_padded_eq sz N hpos hN hsz, padded_spinlock.layout,
    align_up_zero N hpos]

theorem line_of_lock_byte (sz N base i b : Nat) (hpos : 0 < N) (hN : N < 2 ^ 32)
    (hsz : sz ≤ N) (hbase : N ∣ base) (hb : b < N) :
    line_of N (lock_addr sz N base i + b) = base / N + i := by
  obtain ⟨q, rfl⟩ := hbase
  rw [lock_addr_eq sz N (N * q) i hpos hN hsz, line_of, Nat.mul_div_cancel_left q hpos]
  have e : N * q + i * N + b = b + N * (q + i) := by ring
  rw [e, Nat.add_mul_div_left b (q + i) hpos, Nat.div_eq_of_lt hb]
  simp

/-- C8: for every `N` (a value of the template parameter, of type `unsigned`) that is a
power of two and at least `sz = sizeof(spinlock)`: the padding of `padded_spinlock<N>`
is exactly `N - sz` bytes; `sizeof(padded_spinlock<N>)` is the size of the lock plus the
padding rounded up to `N`, which is exactly `N`; in an array the embedded locks of two
adjacent elements are exactly `N` bytes apart; and when the base of the array is a
multiple of `N`, no byte of the embedded lock of one element lies in the same `N`-byte
line as a byte of the embedded lock of another element.  In particular
`sizeof(padded_spinlock<64>) = 64` (for `sz ≤ 64`). -/
theorem padded_spinlock_padding (sz N k : Nat) (hpow : N = 2 ^ k) (hN : N < 2 ^ 32)
    (hsz : sz ≤ N) :
    (padded_spinlock.layout sz N).padding_bytes = N - sz ∧
    padded_spinlock.sizeof sz N = align_up (sz + (N - sz)) N ∧
    padded_spinlock.sizeof sz N = N ∧
    (padded_spinlock.layout sz N).alignment = N ∧
    (∀ base i, lock_addr sz N base (i + 1) = lock_addr sz N base i + N) ∧
    (∀ base i j, N ∣ base → i ≠ j →
      line_of N (lock_addr sz N base i) ≠ line_of N (lock_addr sz N base j)) ∧
    (∀ base i j b c, N ∣ base → i ≠ j → b < sz → c < sz →
      line_of N (lock_addr sz N base i + b) ≠ line_of N (lock_addr sz N base j + c)) ∧
    (sz ≤ 64 → padded_spinlock.sizeof sz 64 = 64) := by
  have hpos : 0 < N := by rw [hpow]; exact Nat.pow_pos (by norm_num)
  have hsize := sizeof_padded_eq sz N hpos hN hsz
  refine ⟨padding_extent_eq sz N hN hsz, ?_, hsize, rfl, ?_, ?_, ?_, ?_⟩
  · rw [hsize, Nat.add_sub_cancel' hsz, align_up_self N hpos]
  · intro base i
    rw [lock_addr_eq sz N base (i + 1) hpos hN hsz, lock_addr_eq sz N base i hpos hN hsz]
    ring
  · intro base i j hbase hij
    have hi := line_of_lock_byte sz N base i 0 hpos hN hsz hbase hpos
    have hj := line_of_lock_byte sz N base j 0 hpos hN hsz hbase hpos
    simp only [Nat.add_zero] at hi hj
    rw [hi, hj]
    omega
  · intro base i j b c hbase hij hb hc
    rw [line_of_lock_byte sz N base i b hpos hN hsz hbase (by omega),
      line_of_lock_byte sz N base j c hpos hN hsz hbase (by omega)]
    omega
  · intro h64
    exact sizeof_padded_eq sz 64 (by norm_num) (by norm_num) h64

/-- C8 at `sizeof(spinlock) = 1` and `N = 64`: 63 bytes of padding, size 64. -/
theorem padded_spinlock_padding_witness :
    (64 = 2 ^ 6 ∧ 64 < 2 ^ 32 ∧ 1 ≤ 64) ∧
    (padded_spinlock.layout 1 64).padding_bytes = 64 - 1 ∧
    padded_spinlock.sizeof 1 64 = 64 :=
  ⟨⟨by norm_num, by norm_num, by norm_num⟩,
    (padded_spinlock_padding 1 64 6 (by norm_num) (by norm_num) (by norm_num)).1,
    (padded_spinlock_padding 1 64 6 (by norm_num) (by norm_num) (by norm_num)).2.2.1⟩

/-! ## Theorems: threads racing for one lock -/

theorem sum_map_set (f : Thread → Nat) :
    ∀ (l : List Thread) (i : Nat) (t u : Thread), l[i]? = some t →
      ((l.set i u).map f).sum + f t = (l.map f).sum + f u := by
  intro l
  induction l with
  | nil => intro i t u h; simp at h
  | cons a l ih =>
    intro i t u h
    cases i with
    | zero =>
      simp only [List.getElem?_cons_zero, Option.some.injEq] at h
      subst h
      simp only [List.set_cons_zero, List.map_cons, List.sum_cons]
      omega
    | succ i =>
      simp only [List.getElem?_cons_succ] at h
      have := ih i t u h
      simp only [List.set_cons_succ, List.map_cons, List.sum_cons]
      omega

theorem inCSCount_pos_of_mem (l : List Thread) (t : Thread) (h : t ∈ l)
    (hcs : t.inCS = true) : 1 ≤ inCSCount l := by
  induction l with
  | nil => simp at h
  | cons a l ih =>
    simp only [inCSCount, List.map_cons, List.sum_cons]
    rcases List.mem_cons.mp h with rfl | h
    · simp [hcs]
    · have := ih h
      simp only [inCSCount] at this
      omega

theorem exists_inCS_of_count (l : List Thread) (h : 1 ≤ inCSCount l) :
    ∃ (i : Nat) (t : Thread), l[i]? = some t ∧ t.inCS = true := by
  induction l with
  | nil => simp [inCSCount] at h
  | cons a l ih =>
    cases ha : a.inCS with
    | true => exact ⟨0, a, List.getElem?_cons_zero, ha⟩
    | false =>
      simp only [inCSCount, List.map_cons, List.sum_cons, ha] at h
      obtain ⟨i, t, hi, ht⟩ := ih (by simpa [inCSCount] using h)
      exact ⟨i + 1, t, by rw [List.getElem?_cons_succ]; exact hi, ht⟩

/-- Two threads in their critical sections are the same thread when at most one is. -/
theorem inCS_unique :
    ∀ (l : List Thread) (i j : Nat) (ti tj : Thread), inCSCount l ≤ 1 →
      l[i]? = some ti → l[j]? = some tj → ti.inCS = true → tj.inCS = true → i = j := by
  intro l
  induction l with
  | nil => intro i j ti tj _ hi; simp at hi
  | cons a l ih =>
    intro i j ti tj hc hi hj hti htj
    simp only [inCSCount, List.map_cons, List.sum_cons] at hc
    cases i with
    | zero =>
      cases j with
      | zero => rfl
      | succ j =>
        simp only [List.getElem?_cons_zero, Option.some.injEq] at hi
        simp only [List.getElem?_cons_succ] at hj
        have := inCSCount_pos_of_mem l tj (List.mem_iff_getElem?.mpr ⟨j, hj⟩) htj
        simp only [inCSCount] at this
        rw [hi, hti] at hc
        simp at hc
        omega
    | succ i =>
      cases j with
      | zero =>
        simp only [List.getElem?_cons_zero, Option.some.injEq] at hj
        simp only [List.getElem?_cons_succ] at hi
        have := inCSCount_pos_of_mem l ti (List.mem_iff_getElem?.mpr ⟨i, hi⟩) hti
        simp only [inCSCount] at this
        rw [hj, htj] at hc
        simp at hc
        omega
      | succ j =>
        simp only [List.getElem?_cons_succ] at hi hj
        have := ih i j ti tj (by simp only [inCSCount]; omega) hi hj hti htj
        omega

theorem step_none (M : Nat) (σ : System) (tid : Nat) (h : σ.threads[tid]? = none) :
    System.step M σ tid = σ := by
  simp [System.step, h]

theorem step_done (M : Nat) (σ : System) (tid : Nat) (t : Thread)
    (h : σ.threads[tid]? = some t) (hpc : t.pc = Pc.done) :
    System.step M σ tid = σ := by
  simp [System.step, h, hpc]

theorem step_lock_acquire (M : Nat) (σ : System) (tid : Nat) (t : Thread)
    (h : σ.threads[tid]? = some t) (hpc : t.pc = Pc.lock) (hf : σ.lk.flag.v = false) :
    System.step M σ tid
      = ⟨⟨⟨true⟩⟩, σ.counter, σ.threads.set tid { t with pc := Pc.read }⟩ := by
  simp [System.step, h, hpc, spinlock.lock, lockLoop_clear _ 0 0 σ.lk hf]

theorem step_lock_retry (M : Nat) (σ : System) (tid : Nat) (t : Thread)
    (h : σ.threads[tid]? = some t) (hpc : t.pc = Pc.lock) (hf : σ.lk.flag.v = true) :
    System.step M σ tid = σ := by
  have e : σ.lk = ⟨⟨true⟩⟩ := spinlock_eq_of_v σ.lk true hf
  simp [System.step, h, hpc, spinlock.lock, lockLoop_set _ 0 0 σ.lk hf, lockLoop_zero,
    Run.after, Env.alone, ← e]

theorem step_read (M : Nat) (σ : System) (tid : Nat) (t : Thread)
    (h : σ.threads[tid]? = some t) (hpc : t.pc = Pc.read) :
    System.step M σ tid
      = ⟨σ.lk, σ.counter, σ.threads.set tid { t with pc := Pc.write, r := σ.counter }⟩ := by
  simp [System.step, h, hpc]

theorem step_write (M : Nat) (σ : System) (tid : Nat) (t : Thread)
    (h : σ.threads[tid]? = some t) (hpc : t.pc = Pc.write) :
    System.step M σ tid
      = ⟨σ.lk, t.r + 1, σ.threads.set tid { t with pc := Pc.unlock }⟩ := by
  simp [System.step, h, hpc]

theorem step_unlock (M : Nat) (σ : System) (tid : Nat) (t : Thread)
    (h : σ.threads[tid]? = some t) (hpc : t.pc = Pc.unlock) :
    System.step M σ tid
      = ⟨⟨⟨false⟩⟩, σ.counter, σ.threads.set tid (Thread.atIteration M (t.i + 1) t.r)⟩ := by
  simp [System.step, h, hpc, unlock_eq]

theorem mem_set_cases (l : List Thread) (tid : Nat) (u v : Thread) (h : v ∈ l.set tid u) :
    v = u ∨ ∃ j, j ≠ tid ∧ l[j]? = some v := by
  obtain ⟨j, hj⟩ := List.mem_iff_getElem?.mp h
  rw [List.getElem?_set] at hj
  by_cases e : tid = j
  · rw [if_pos e] at hj
    by_cases hlt : tid < l.length
    · rw [if_pos hlt] at hj
      exact Or.inl (Option.some.inj hj).symm
    · rw [if_neg hlt] at hj
      exact absurd hj (by simp)
  · rw [if_neg e] at hj
    exact Or.inr ⟨j, fun h => e h.symm, hj⟩

theorem mem_of_getElem? (l : List Thread) (j : Nat) (v : Thread) (h : l[j]? = some v) :
    v ∈ l :=
  List.mem_iff_getElem?.mpr ⟨j, h⟩

theorem inv_count_le_one (M : Nat) (σ : System) (inv : System.Inv M σ) :
    inCSCount σ.threads ≤ 1 := by
  rw [inv.held]; split <;> omega

/-- Replacing thread `tid` keeps the invariant when the new flag, counter and thread
fit together. -/
theorem inv_update (M : Nat) (σ : System) (tid : Nat) (t u : Thread) (lk1 : spinlock)
    (c1 : Nat) (inv : System.Inv M σ) (h : σ.threads[tid]? = some t)
    (hheld : inCSCount σ.threads + (if u.inCS then 1 else 0)
      = (if lk1.flag.v then 1 else 0) + (if t.inCS then 1 else 0))
    (hcount : c1 + t.contribution = σ.counter + u.contribution)
    (hfresh : u.pc = Pc.write → u.r = c1)
    (hothers : c1 = σ.counter ∨ t.inCS = true)
    (hbound : (u.pc = Pc.done → u.i = M) ∧ (u.pc ≠ Pc.done → u.i < M)) :
    System.Inv M ⟨lk1, c1, σ.threads.set tid u⟩ := by
  have hs : inCSCount (σ.threads.set tid u) + (if t.inCS then 1 else 0)
      = inCSCount σ.threads + (if u.inCS then 1 else 0) :=
    sum_map_set (fun t => if t.inCS then 1 else 0) σ.threads tid t u h
  have hc := sum_map_set Thread.contribution σ.threads tid t u h
  have hcnt := inv.count
  refine ⟨?_, ?_, ?_, ?_⟩
  · show inCSCount (σ.threads.set tid u) = if lk1.flag.v then 1 else 0
    omega
  · show c1 = ((σ.threads.set tid u).map Thread.contribution).sum
    omega
  · intro v hv hw
    show v.r = c1
    rcases mem_set_cases _ _ _ _ hv with rfl | ⟨j, hne, hj⟩
    · exact hfresh hw
    · rcases hothers with hc1 | hcs
      · rw [hc1]; exact inv.fresh v (mem_of_getElem? _ _ _ hj) hw
      · exact absurd (inCS_unique σ.threads j tid v t (inv_count_le_one M σ inv) hj h
          (by simp [Thread.inCS, hw]) hcs) hne
  · intro v hv
    rcases mem_set_cases _ _ _ _ hv with rfl | ⟨j, _, hj⟩
    · exact hbound
    · exact inv.bound v (mem_of_getElem? _ _ _ hj)

/-- One step of one thread keeps the invariant. -/
theorem inv_step (M : Nat) (σ : System) (tid : Nat) (inv : System.Inv M σ) :
    System.Inv M (System.step M σ tid) := by
  cases h : σ.threads[tid]? with
  | none => rw [step_none M σ tid h]; exact inv
  | some t =>
    have htm : t ∈ σ.threads := mem_of_getElem? _ _ _ h
    have hb := inv.bound t htm
    have hheld := inv.held
    cases hpc : t.pc with
    | done => rw [step_done M σ tid t h hpc]; exact inv
    | lock =>
      cases hf : σ.lk.flag.v with
      | true => rw [step_lock_retry M σ tid t h hpc hf]; exact inv
      | false =>
        rw [step_lock_acquire M σ tid t h hpc hf]
        rw [hf] at hheld
        have hlt : t.i < M := hb.2 (by simp [hpc])
        apply inv_update M σ tid t _ _ _ inv h
        · simp [Thread.inCS, hpc, hheld]
        · simp [Thread.contribution, hpc]
        · intro hw; simp at hw
        · exact Or.inl rfl
        · exact ⟨by simp, fun _ => hlt⟩
    | read =>
      rw [step_read M σ tid t h hpc]
      have hlt : t.i < M := hb.2 (by simp [hpc])
      apply inv_update M σ tid t _ _ _ inv h
      · simp [Thread.inCS, hpc, hheld]
      · simp [Thread.contribution, hpc]
      · intro _; rfl
      · exact Or.inl rfl
      · exact ⟨by simp, fun _ => hlt⟩
    | write =>
      rw [step_write M σ tid t h hpc]
      have hlt : t.i < M := hb.2 (by simp [hpc])
      have hr := inv.fresh t htm hpc
      apply inv_update M σ tid t _ _ _ inv h
      · simp [Thread.inCS, hpc, hheld]
      · simp [Thread.contribution, hpc, hr]; omega
      · intro hw; simp at hw
      · exact Or.inr (by simp [Thread.inCS, hpc])
      · exact ⟨by simp, fun _ => hlt⟩
    | unlock =>
      rw [step_unlock M σ tid t h hpc]
      have hlt : t.i < M := hb.2 (by simp [hpc])
      have hle := inv_count_le_one M σ inv
      have hpos := inCSCount_pos_of_mem σ.threads t htm (by simp [Thread.inCS, hpc])
      have hone : inCSCount σ.threads = 1 := by omega
      apply inv_update M σ tid t _ _ _ inv h
      · by_cases hM : t.i + 1 < M <;> simp [Thread.inCS, hpc, Thread.atIteration, hM, hone]
      · by_cases hM : t.i + 1 < M <;> simp [Thread.contribution, hpc, Thread.atIteration, hM]
      · intro hw
        by_cases hM : t.i + 1 < M <;> simp [Thread.atIteration, hM] at hw
      · exact Or.inl rfl
      · by_cases hM : t.i + 1 < M
        · simp [Thread.atIteration, hM]
        · simp [Thread.atIteration, hM]; omega

theorem sum_map_replicate (f : Thread → Nat) (t : Thread) (n : Nat) :
    ((List.replicate n t).map f).sum = n * f t := by
  induction n with
  | zero => simp
  | succ n ih => simp only [List.replicate_succ, List.map_cons, List.sum_cons, ih]; ring

theorem sum_map_const (f : Thread → Nat) (c : Nat) (l : List Thread)
    (h : ∀ t ∈ l, f t = c) : (l.map f).sum = l.length * c := by
  induction l with
  | nil => simp
  | cons a l ih =>
    have ha := h a (List.mem_cons_self a l)
    have := ih (fun t ht => h t (List.mem_cons_of_mem a ht))
    simp only [List.map_cons, List.sum_cons, List.length_cons, ha, this]; ring

/-- The start satisfies the invariant. -/
theorem inv_init (N M : Nat) : System.Inv M (System.init N M) := by
  have hpc : (Thread.atIteration M 0 0).pc = Pc.lock ∨ (Thread.atIteration M 0 0).pc = Pc.done := by
    by_cases hM : 0 < M <;> simp [Thread.atIteration, hM]
  have hcs : (Thread.atIteration M 0 0).inCS = false := by
    rcases hpc with h | h <;> simp [Thread.inCS, h]
  refine ⟨?_, ?_, ?_, ?_⟩
  · show inCSCount (List.replicate N (Thread.atIteration M 0 0)) = 0
    rw [inCSCount, sum_map_replicate]; simp [hcs]
  · show 0 = ((List.replicate N (Thread.atIteration M 0 0)).map Thread.contribution).sum
    rw [sum_map_replicate]
    rcases hpc with h | h <;> simp [Thread.contribution, h] <;> simp [Thread.atIteration]
  · intro t ht hw
    have ht1 : t ∈ List.replicate N (Thread.atIteration M 0 0) := ht
    rw [(List.mem_replicate.mp ht1).2] at hw
    rcases hpc with h | h <;> simp [h] at hw
  · intro t ht
    have ht1 : t ∈ List.replicate N (Thread.atIteration M 0 0) := ht
    rw [(List.mem_replicate.mp ht1).2]
    by_cases hM : 0 < M
    · simp [Thread.atIteration, hM]
    · simp [Thread.atIteration, hM]; omega

theorem run_cons (M : Nat) (σ : System) (tid : Nat) (sched : List Nat) :
    System.run M σ (tid :: sched) = System.run M (System.step M σ tid) sched := rfl

theorem run_append (M : Nat) (σ : System) (s1 s2 : List Nat) :
    System.run M σ (s1 ++ s2) = System.run M (System.run M σ s1) s2 := by
  simp [System.run, List.foldl_append]

/-- Every schedule keeps the invariant. -/
theorem inv_run (M : Nat) (sched : List Nat) :
    ∀ σ : System, System.Inv M σ → System.Inv M (System.run M σ sched) := by
  induction sched with
  | nil => intro σ inv; exact inv
  | cons tid sched ih =>
    intro σ inv
    rw [run_cons]
    exact ih _ (inv_step M σ tid inv)

theorem length_step (M : Nat) (σ : System) (tid : Nat) :
    (System.step M σ tid).threads.length = σ.threads.length := by
  cases h : σ.threads[tid]? with
  | none => rw [step_none M σ tid h]
  | some t =>
    cases hpc : t.pc with
    | done => rw [step_done M σ tid t h hpc]
    | lock =>
      cases hf : σ.lk.flag.v with
      | true => rw [step_lock_retry M σ tid t h hpc hf]
      | false => rw [step_lock_acquire M σ tid t h hpc hf]; simp
    | read => rw [step_read M σ tid t h hpc]; simp
    | write => rw [step_write M σ tid t h hpc]; simp
    | unlock => rw [step_unlock M σ tid t h hpc]; simp

theorem length_run (M : Nat) (sched : List Nat) :
    ∀ σ : System, (System.run M σ sched).threads.length = σ.threads.length := by
  induction sched with
  | nil => intro σ; rfl
  | cons tid sched ih =>
    intro σ
    rw [run_cons, ih, length_step]

/-- When all threads are done, the counter is the number of threads times `M`. -/
theorem counter_of_finished (M : Nat) (σ : System) (inv : System.Inv M σ)
    (hfin : σ.finished) : σ.counter = σ.threads.length * M := by
  rw [inv.count]
  apply sum_map_const
  intro t ht
  have hd := hfin t ht
  have := (inv.bound t ht).1 hd
  simp [Thread.contribution, hd, this]

theorem stepsLeft_update (M : Nat) (σ : System) (tid : Nat) (t u : Thread) (lk1 : spinlock)
    (c1 : Nat) (h : σ.threads[tid]? = some t)
    (hlt : Thread.stepsLeft M u < Thread.stepsLeft M t) :
    System.stepsLeft M ⟨lk1, c1, σ.threads.set tid u⟩ < System.stepsLeft M σ := by
  have hs : System.stepsLeft M ⟨lk1, c1, σ.threads.set tid u⟩ + Thread.stepsLeft M t
      = System.stepsLeft M σ + Thread.stepsLeft M u :=
    sum_map_set (Thread.stepsLeft M) σ.threads tid t u h
  omega

/-- While some thread is not done, some thread can make a step that brings the system
closer to the end: the thread in its critical section when the flag is set, any thread
that is not done when the flag is clear. -/
theorem exists_progress (M : Nat) (σ : System) (inv : System.Inv M σ)
    (hnot : ¬ σ.finished) :
    ∃ tid, System.stepsLeft M (System.step M σ tid) < System.stepsLeft M σ := by
  have hheld := inv.held
  cases hf : σ.lk.flag.v with
  | true =>
    rw [hf] at hheld
    obtain ⟨tid, t, h, hcs⟩ := exists_inCS_of_count σ.threads (by simp [hheld])
    have hb := inv.bound t (mem_of_getElem? _ _ _ h)
    refine ⟨tid, ?_⟩
    cases hpc : t.pc with
    | lock => simp [Thread.inCS, hpc] at hcs
    | done => simp [Thread.inCS, hpc] at hcs
    | read =>
      have hlt : t.i < M := hb.2 (by simp [hpc])
      rw [step_read M σ tid t h hpc]
      apply stepsLeft_update M σ tid t _ _ _ h
      simp only [Thread.stepsLeft, hpc]; omega
    | write =>
      have hlt : t.i < M := hb.2 (by simp [hpc])
      rw [step_write M σ tid t h hpc]
      apply stepsLeft_update M σ tid t _ _ _ h
      simp only [Thread.stepsLeft, hpc]; omega
    | unlock =>
      have hlt : t.i < M := hb.2 (by simp [hpc])
      rw [step_unlock M σ tid t h hpc]
      apply stepsLeft_update M σ tid t _ _ _ h
      by_cases hM : t.i + 1 < M
      · simp only [Thread.stepsLeft, hpc, Thread.atIteration, hM, if_true]; omega
      · simp only [Thread.stepsLeft, hpc, Thread.atIteration, hM, if_false]; omega
  | false =>
    rw [hf] at hheld
    have hex : ∃ t, t ∈ σ.threads ∧ t.pc ≠ Pc.done := by
      by_contra hno
      apply hnot
      intro t ht
      by_contra hd
      exact hno ⟨t, ht, hd⟩
    obtain ⟨t, ht, hd⟩ := hex
    obtain ⟨tid, h⟩ := List.mem_iff_getElem?.mp ht
    have hlt : t.i < M := (inv.bound t ht).2 hd
    have hcs : t.inCS = false := by
      cases hc : t.inCS with
      | false => rfl
      | true =>
        have := inCSCount_pos_of_mem σ.threads t ht hc
        simp [hheld] at this
    have hpc : t.pc = Pc.lock := by
      cases hp : t.pc with
      | lock => rfl
      | done => exact absurd hp hd
      | read => simp [Thread.inCS, hp] at hcs
      | write => simp [Thread.inCS, hp] at hcs
      | unlock => simp [Thread.inCS, hp] at hcs
    refine ⟨tid, ?_⟩
    rw [step_lock_acquire M σ tid t h hpc hf]
    apply stepsLeft_update M σ tid t _ _ _ h
    simp only [Thread.stepsLeft, hpc]; omega

/-- From every state that satisfies the invariant, some schedule lets all threads
finish. -/
theorem exists_completion (M : Nat) :
    ∀ (n : Nat) (σ : System), System.Inv M σ → System.stepsLeft M σ ≤ n →
      ∃ ext : List Nat, (System.run M σ ext).finished := by
  intro n
  induction n with
  | zero =>
    intro σ inv hn
    by_cases hfin : σ.finished
    · exact ⟨[], hfin⟩
    · obtain ⟨tid, hlt⟩ := exists_progress M σ inv hfin
      omega
  | succ n ih =>
    intro σ inv hn
    by_cases hfin : σ.finished
    · exact ⟨[], hfin⟩
    · obtain ⟨tid, hlt⟩ := exists_progress M σ inv hfin
      obtain ⟨ext, hext⟩ := ih (System.step M σ tid) (inv_step M σ tid inv) (by omega)
      exact ⟨tid :: ext, by rw [run_cons]; exact hext⟩

/-- C3: `N` threads each run `M` times `lock(); r = counter; counter = r + 1; unlock();`
on one lock that starts clear and one counter that starts at zero.  After the steps of
every schedule (every interleaving of the atomic steps of the threads): at most one
thread is between its successful `lock()` and its `unlock()`; when all threads are
done the counter is exactly `N * M`; and the schedule can be continued to one after
which all threads are done. -/
theorem mutual_exclusion (N M : Nat) (sched : List Nat) :
    (∀ (i j : Nat) (ti tj : Thread),
      (System.run M (System.init N M) sched).threads[i]? = some ti →
      (System.run M (System.init N M) sched).threads[j]? = some tj →
      ti.inCS = true → tj.inCS = true → i = j) ∧
    ((System.run M (System.init N M) sched).finished →
      (System.run M (System.init N M) sched).counter = N * M) ∧
    (∃ ext : List Nat, (System.run M (System.init N M) (sched ++ ext)).finished ∧
      (System.run M (System.init N M) (sched ++ ext)).counter = N * M) := by
  have inv := inv_run M sched (System.init N M) (inv_init N M)
  have hlen : ∀ s : List Nat, (System.run M (System.init N M) s).threads.length = N := by
    intro s
    rw [length_run]
    simp [System.init]
  refine ⟨?_, ?_, ?_⟩
  · intro i j ti tj hi hj hti htj
    exact inCS_unique _ i j ti tj (inv_count_le_one M _ inv) hi hj hti htj
  · intro hfin
    rw [counter_of_finished M _ inv hfin, hlen]
  · obtain ⟨ext, hext⟩ := exists_completion M _ _ inv (Nat.le_refl _)
    have hrun := run_append M (System.init N M) sched ext
    refine ⟨ext, by rw [hrun]; exact hext, ?_⟩
    have inv2 := inv_run M (sched ++ ext) (System.init N M) (inv_init N M)
    rw [counter_of_finished M _ inv2 (by rw [hrun]; exact hext), hlen]

/-! ## Further properties of the loops -/

theorem trace_after {σ α : Type} (pre : List Event) (r : Run σ α) :
    (r.after pre).trace = pre ++ r.trace := by
  cases r <;> rfl

theorem lockLoop_events (other : Nat → atomic_flag → atomic_flag) :
    ∀ (fuel k : Nat) (s : spinlock), ∀ e ∈ (spinlock.lockLoop other fuel k s).trace,
      e = Event.cpu_relax ∨ ∃ b, e = Event.tas memory_order.acquire b := by
  intro fuel
  induction fuel with
  | zero => intro k s e he; simp [lockLoop_zero, Run.trace] at he
  | succ fuel ih =>
    intro k s e he
    cases hv : s.flag.v with
    | false =>
      rw [lockLoop_clear other fuel k s hv] at he
      simp only [Run.trace, List.mem_singleton] at he
      exact Or.inr ⟨false, he⟩
    | true =>
      rw [lockLoop_set other fuel k s hv, trace_after] at he
      rcases List.mem_append.mp he with h | h
      · simp only [List.mem_cons, List.mem_singleton, List.not_mem_nil, or_false] at h
        rcases h with h | h
        · exact Or.inr ⟨true, h⟩
        · exact Or.inl h
      · exact ih _ _ e h

theorem untilLoop_events (C : Chrono) (E : Env) (when : C.TimePoint) :
    ∀ (fuel i : Nat) (s : spinlock), ∀ e ∈ (spinlock.untilLoop C E when fuel i s).trace,
      (∃ r, e = Event.now r) ∨ ∃ b, e = Event.tas memory_order.acquire b := by
  intro fuel
  induction fuel with
  | zero => intro i s e he; simp [untilLoop_zero, Run.trace] at he
  | succ fuel ih =>
    intro i s e he
    cases h : C.gt when (E.now i) with
    | false =>
      rw [untilLoop_expired C E when fuel i s h] at he
      simp only [Run.trace, List.mem_singleton] at he
      exact Or.inl ⟨_, he⟩
    | true =>
      cases hv : s.flag.v with
      | false =>
        rw [untilLoop_acquire C E when fuel i s h hv] at he
        simp only [Run.trace, List.mem_cons, List.mem_singleton, List.not_mem_nil,
          or_false] at he
        rcases he with he | he
        · exact Or.inl ⟨_, he⟩
        · exact Or.inr ⟨false, he⟩
      | true =>
        rw [untilLoop_retry C E when fuel i s h hv, trace_after] at he
        rcases List.mem_append.mp he with h2 | h2
        · simp only [List.mem_cons, List.mem_singleton, List.not_mem_nil, or_false] at h2
          rcases h2 with h2 | h2
          · exact Or.inl ⟨_, h2⟩
          · exact Or.inr ⟨true, h2⟩
        · exact ih _ _ e h2

/-- The orderings of the atomic operations: every operation that `lock`, `try_lock`,
`try_lock_until` and `try_lock_for` perform on the flag is a test-and-set with acquire
ordering (they never clear the flag), and `unlock` performs one clear with release
ordering and nothing else. -/
theorem orderings (C : Chrono) (E : Env) (when : C.TimePoint) (duration : C.Duration)
    (fuel : Nat) (s : spinlock) :
    (∀ e ∈ (s.lock E fuel).trace,
      e = Event.cpu_relax ∨ ∃ b, e = Event.tas memory_order.acquire b) ∧
    (∀ e ∈ s.try_lock.2.2, ∃ b, e = Event.tas memory_order.acquire b) ∧
    (∀ e ∈ (s.try_lock_until C E when fuel).trace,
      (∃ r, e = Event.now r) ∨ ∃ b, e = Event.tas memory_order.acquire b) ∧
    (∀ e ∈ (s.try_lock_for C E duration fuel).trace,
      (∃ r, e = Event.now r) ∨ ∃ b, e = Event.tas memory_order.acquire b) ∧
    s.unlock.2 = [Event.clear memory_order.release] := by
  refine ⟨lockLoop_events E.other fuel 0 s, ?_, untilLoop_events C E when fuel 0 s, ?_, rfl⟩
  · intro e he
    rw [try_lock_eq] at he
    exact ⟨_, List.mem_singleton.mp he⟩
  · intro e he
    rw [spinlock.try_lock_for, trace_after] at he
    rcases List.mem_append.mp he with h | h
    · exact Or.inl ⟨_, List.mem_singleton.mp h⟩
    · exact untilLoop_events C E.afterReading _ fuel 0 s e h

theorem lockLoop_mono (other : Nat → atomic_flag → atomic_flag) :
    ∀ (fuel k : Nat) (s st : spinlock) (tr : List Event),
      spinlock.lockLoop other fuel k s = Run.returned () st tr →
      spinlock.lockLoop other (fuel + 1) k s = Run.returned () st tr := by
  intro fuel
  induction fuel with
  | zero => intro k s st tr h; simp [lockLoop_zero] at h
  | succ fuel ih =>
    intro k s st tr h
    cases hv : s.flag.v with
    | false =>
      rw [lockLoop_clear other fuel k s hv] at h
      rw [lockLoop_clear other (fuel + 1) k s hv]; exact h
    | true =>
      rw [lockLoop_set other fuel k s hv] at h
      rw [lockLoop_set other (fuel + 1) k s hv]
      cases hr : spinlock.lockLoop other fuel (k + 1) ⟨other k ⟨true⟩⟩ with
      | spinning st1 tr1 => simp [hr, Run.after] at h
      | returned r st1 tr1 =>
        rw [ih _ _ _ _ hr]
        rw [hr] at h
        exact h

theorem untilLoop_mono (C : Chrono) (E : Env) (when : C.TimePoint) :
    ∀ (fuel i : Nat) (s st : spinlock) (b : Bool) (tr : List Event),
      spinlock.untilLoop C E when fuel i s = Run.returned b st tr →
      spinlock.untilLoop C E when (fuel + 1) i s = Run.returned b st tr := by
  intro fuel
  induction fuel with
  | zero => intro i s st b tr h; simp [untilLoop_zero] at h
  | succ fuel ih =>
    intro i s st b tr h
    cases hw : C.gt when (E.now i) with
    | false =>
      rw [untilLoop_expired C E when fuel i s hw] at h
      rw [untilLoop_expired C E when (fuel + 1) i s hw]; exact h
    | true =>
      cases hv : s.flag.v with
      | false =>
        rw [untilLoop_acquire C E when fuel i s hw hv] at h
        rw [untilLoop_acquire C E when (fuel + 1) i s hw hv]; exact h
      | true =>
        rw [untilLoop_retry C E when fuel i s hw hv] at h
        rw [untilLoop_retry C E when (fuel + 1) i s hw hv]
        cases hr : spinlock.untilLoop C E when fuel (i + 1) ⟨E.other i ⟨true⟩⟩ with
        | spinning st1 tr1 => simp [hr, Run.after] at h
        | returned r st1 tr1 =>
          rw [ih _ _ _ _ _ hr]
          rw [hr] at h
          exact h

/-- A call that has returned within `fuel` iterations of its loop has returned the same
result, lock state and events within every larger number of iterations. -/
theorem returned_stable (C : Chrono) (E : Env) (when : C.TimePoint) (duration : C.Duration)
    (s : spinlock) (fuel more : Nat) :
    (∀ st tr, s.lock E fuel = Run.returned () st tr →
      s.lock E (fuel + more) = Run.returned () st tr) ∧
    (∀ b st tr, s.try_lock_until C E when fuel = Run.returned b st tr →
      s.try_lock_until C E when (fuel + more) = Run.returned b st tr) ∧
    (∀ b st tr, s.try_lock_for C E duration fuel = Run.returned b st tr →
      s.try_lock_for C E duration (fuel + more) = Run.returned b st tr) := by
  induction more with
  | zero => exact ⟨fun _ _ h => h, fun _ _ _ h => h, fun _ _ _ h => h⟩
  | succ more ih =>
    refine ⟨?_, ?_, ?_⟩
    · intro st tr h
      exact lockLoop_mono E.other (fuel + more) 0 s st tr (ih.1 st tr h)
    · intro b st tr h
      exact untilLoop_mono C E when (fuel + more) 0 s st b tr (ih.2.1 b st tr h)
    · intro b st tr h
      have h2 := ih.2.2 b st tr h
      simp only [spinlock.try_lock_for, spinlock.try_lock_until] at h2 ⊢
      cases hr : spinlock.untilLoop C E.afterReading (C.plus (E.now 0) duration)
        (fuel + more) 0 s with
      | spinning st1 tr1 => simp [hr, Run.after] at h2
      | returned r st1 tr1 =>
        rw [hr] at h2
        have := untilLoop_mono C E.afterReading (C.plus (E.now 0) duration) (fuel + more) 0 s
          st1 r tr1 hr
        rw [show fuel + (more + 1) = fuel + more + 1 from rfl, this]
        exact h2

/-- Whatever the arithmetic of the instantiation: every attempt of `try_lock_until(when)`
comes right after a clock reading at which `when > Clock::now()` was true; the call
returns false only right after a reading at which it was false; when it is false at the
first reading the call returns false after that one reading, without any test-and-set
and with the lock as it was; and on a free lock, when it is true at the first reading,
the call returns true after one reading and one test-and-set. -/
theorem try_lock_until_by_comparison (C : Chrono) (E : Env) (when : C.TimePoint)
    (s : spinlock) :
    (∀ fuel, attemptsGuarded (fun r => C.gt when r = true)
      (s.try_lock_until C E when fuel).trace) ∧
    (∀ fuel st tr, s.try_lock_until C E when fuel = Run.returned false st tr →
      ∃ r, tr.getLast? = some (Event.now r) ∧ C.gt when r = false) ∧
    (C.gt when (E.now 0) = false → ∀ fuel,
      s.try_lock_until C E when (fuel + 1) = Run.returned false s [Event.now (E.now 0)]) ∧
    (s.flag.v = false → C.gt when (E.now 0) = true → ∀ fuel,
      s.try_lock_until C E when (fuel + 1) = Run.returned true ⟨⟨true⟩⟩
        [Event.now (E.now 0), Event.tas memory_order.acquire false]) := by
  refine ⟨?_, ?_, ?_, ?_⟩
  · intro fuel
    rcases untilLoop_shape C E when fuel 0 s with ⟨st, hr, hlt⟩ | ⟨n, _, hr, hlt⟩ |
      ⟨n, st, _, hr, hlt, _⟩
    · have := attemptsGuarded_spinTrace E.now (fun r => C.gt when r = true) []
        (attemptsGuarded_nil _) fuel 0 hlt
      simpa [spinlock.try_lock_until, hr, Run.trace] using this
    · have := attemptsGuarded_spinTrace E.now (fun r => C.gt when r = true)
        [Event.now (E.now (0 + n)), Event.tas memory_order.acquire false]
        (attemptsGuarded_cons _ _ _ _ [] (hlt n (Nat.le_refl n)) (attemptsGuarded_nil _))
        n 0 (fun j hj => hlt j (Nat.le_of_lt hj))
      simpa only [spinlock.try_lock_until, hr, Run.trace] using this
    · have := attemptsGuarded_spinTrace E.now (fun r => C.gt when r = true)
        [Event.now (E.now (0 + n))] (attemptsGuarded_reading _ _) n 0 hlt
      simpa only [spinlock.try_lock_until, hr, Run.trace] using this
  · intro fuel st tr h
    rcases untilLoop_shape C E when fuel 0 s with ⟨st1, hr, _⟩ | ⟨n, _, hr, _⟩ |
      ⟨n, st1, _, hr, _, hge⟩
    · simp [spinlock.try_lock_until, hr] at h
    · simp [spinlock.try_lock_until, hr] at h
    · simp only [spinlock.try_lock_until, hr, Run.returned.injEq, true_and] at h
      refine ⟨E.now (0 + n), ?_, hge⟩
      rw [← h.2]; simp
  · intro h fuel
    exact untilLoop_expired C E when fuel 0 s h
  · intro hs h fuel
    exact untilLoop_acquire C E when fuel 0 s h hs

/-! ## Where the arithmetic of `Chrono.unsigned64` is exact -/

/-- C3 at two threads of one iteration each and a schedule in which the second thread
has to retry twice while the first is in its critical section: both threads finish and
the counter is 2. -/
theorem mutual_exclusion_witness :
    (System.run 1 (System.init 2 1) [0, 1, 0, 1, 0, 0, 1, 1, 1, 1]).finished ∧
    (System.run 1 (System.init 2 1) [0, 1, 0, 1, 0, 0, 1, 1, 1, 1]).counter = 2 * 1 :=
  ⟨by unfold System.finished; decide,
    (mutual_exclusion 2 1 [0, 1, 0, 1, 0, 0, 1, 1, 1, 1]).2.1
      (by unfold System.finished; decide)⟩

/-- C4 at a held lock that another thread releases after the second failed attempt:
`lock()` returns at its third test-and-set, the one that saw the flag clear. -/
theorem lock_blocking_acquire_witness :
    (⟨⟨true⟩⟩ : spinlock).lock (Env.unlockedAfter 1 (fun _ => 0)) 3
      = Run.returned () ⟨⟨true⟩⟩
        [Event.tas memory_order.acquire true, Event.cpu_relax,
          Event.tas memory_order.acquire true, Event.cpu_relax,
          Event.tas memory_order.acquire false] ∧
    (⟨⟨true⟩⟩ : spinlock).flag.v = true :=
  ⟨by decide,
    ((lock_blocking_acquire (Env.unlockedAfter 1 (fun _ => 0)) ⟨⟨true⟩⟩).2.1 3 ⟨⟨true⟩⟩
      [Event.tas memory_order.acquire true, Event.cpu_relax,
        Event.tas memory_order.acquire true, Event.cpu_relax,
        Event.tas memory_order.acquire false] (by decide)).1⟩

/-- C2 at the calls `try_lock(); try_lock(); unlock()`: the next `try_lock()` succeeds,
and after one more `try_lock()` the next fails. -/
theorem try_lock_succeeds_iff_fresh_witness :
    (spinlock.new.calls [Call.try_lock, Call.try_lock, Call.unlock]).try_lock.1 = true ∧
    (spinlock.new.calls
      ([Call.try_lock, Call.try_lock, Call.unlock] ++ [Call.try_lock])).try_lock.1 = false :=
  ⟨(try_lock_succeeds_iff_fresh [Call.try_lock, Call.try_lock, Call.unlock]).1.mpr (by decide),
    (try_lock_succeeds_iff_fresh [Call.try_lock, Call.try_lock, Call.unlock]).2.2.1⟩

end cpputil
